import Mathlib

set_option maxRecDepth 8000

/-!
A shallow embedding of the streaming piece-commitment machinery of the
`add_piece` crate (files `src/commitment_reader.rs`, `src/chunks_reader.rs`,
`src/lib.rs`), together with theorems settling the specification claims.

Modelling conventions:

* Bytes are natural numbers, a `Domain` (the 32-byte hash output of the
  external `DefaultPieceHasher`) is a list of bytes, and the external hasher
  is an arbitrary function `HashFn` over byte lists (the code only ever calls
  it on 64-byte inputs).  All theorems quantify over the hasher, since the
  crate treats it as an opaque collaborator.
* Rust panics (`expect` on a missing element, `debug_assert`) and the
  undefined behaviour of the `unsafe` 64-byte read from a lone trailing
  32-byte `Domain` in `compute_row` / `ChunksReader::finish` are modelled as
  the distinguished error values of `RedError`.
* `io::Read::read` calls are modelled by the bytes the underlying source
  actually delivers for that call; the `Read` contract bounds them by the
  size of the slice handed to the source, which the model enforces with
  `List.take`.
-/

/-- Byte strings are lists of naturals. -/
abbrev Bytes := List Nat

/-- The `Domain` hash-output type (32 bytes in the real system). -/
abbrev Domain := List Nat

/-- The external hasher collaborator: `hash(bytes) -> Domain`. -/
abbrev HashFn := Bytes → Domain

/-- Abnormal outcomes of the pairwise tree reductions.

* `expectNone` models the `expect`-panic (and the `debug_assert`) that fires
  when the final row is empty.
* `oobPairRead` models the undefined behaviour of the `unsafe`
  `slice::from_raw_parts` that reads `2 * size_of::<Domain>()` bytes out of a
  chunk holding a single `Domain` (odd row length, or a singleton row handed
  to `compute_row`). -/
inductive RedError where
  | expectNone : RedError
  | oobPairRead : RedError
deriving DecidableEq

/-- One reduction row, as performed by `compute_row` in
`CommitmentReader::compute` and by the loop body of `ChunksReader::finish`:
`row.chunks(2)` mapped over the hash of the two concatenated 32-byte domains.
A trailing chunk of one element makes the code read 64 bytes from a 32-byte
slice, which is the `oobPairRead` outcome. -/
def computeRow (hash : HashFn) : List Domain → Except RedError (List Domain)
  | [] => .ok []
  | [_] => .error .oobPairRead
  | a :: b :: rest =>
    match computeRow hash rest with
    | .error e => .error e
    | .ok r => .ok (hash (a ++ b) :: r)

/-- Total companion of `computeRow`: pairs consecutive elements, dropping an
odd trailing element.  Coincides with `computeRow` on even-length rows. -/
def computeRowT (hash : HashFn) : List Domain → List Domain
  | a :: b :: rest => hash (a ++ b) :: computeRowT hash rest
  | _ => []

/-- The `while current_row.len() > 1` reduction loop shared by
`CommitmentReader::compute` and `ChunksReader::finish`, written with a fuel
argument so that it is structurally recursive.  Each successful iteration
halves the row, so `fuel = row.length` (see `reduceLoop`) always suffices;
`reduceLoopFuel_irrel` shows the result does not depend on the fuel. -/
def reduceLoopFuel (hash : HashFn) : Nat → List Domain → Except RedError (List Domain)
  | 0, row => .ok row
  | fuel + 1, row =>
    if row.length ≤ 1 then .ok row
    else
      match computeRow hash row with
      | .error e => .error e
      | .ok next => reduceLoopFuel hash fuel next

/-- The reduction loop: repeatedly replace the row by `computeRow` of it until
at most one element remains. -/
def reduceLoop (hash : HashFn) (row : List Domain) : Except RedError (List Domain) :=
  reduceLoopFuel hash row.length row

/-- Model of `CommitmentReader::compute`: one unconditional `compute_row` pass over the
leaf level, then the `while`-loop, the `debug_assert_eq!(len, 1)` and the
final `pop().expect(..)` (both modelled by `expectNone` when the final row is
empty; `pop` takes the last element). -/
def compute (hash : HashFn) (tree : List Domain) : Except RedError Domain :=
  match computeRow hash tree with
  | .error e => .error e
  | .ok firstRow =>
    match reduceLoop hash firstRow with
    | .error e => .error e
    | .ok finalRow =>
      match finalRow.getLast? with
      | some d => .ok d
      | none => .error .expectNone

/-- Model of `ChunksReader::finish`: the `while`-loop over the chunk-root list, the
`debug_assert_eq!(len, 1)` and the final `into_iter().next().expect(..)`
(modelled by `expectNone` when the final row is empty). -/
def finishReduce (hash : HashFn) (roots : List Domain) : Except RedError Domain :=
  match reduceLoop hash roots with
  | .error e => .error e
  | .ok finalRow =>
    match finalRow.head? with
    | some d => .ok d
    | none => .error .expectNone

/-- Iterate the total row reduction `a` times. -/
def rowIter (hash : HashFn) : Nat → List Domain → List Domain
  | 0, l => l
  | a + 1, l => rowIter hash a (computeRowT hash l)

/-- The Merkle root of a `2 ^ a`-element row: head of the fully reduced row. -/
def mroot (hash : HashFn) (a : Nat) (l : List Domain) : Domain :=
  (rowIter hash a l).headD []

/-- Split a list into consecutive blocks of `n` elements (the last block may
be shorter); written with a fuel argument (one unit per block) so that it is
structurally recursive.  `toBlocksFuel_irrel` shows the fuel is irrelevant as
long as it is at least `l.length`. -/
def toBlocksFuel (n : Nat) : Nat → List Nat → List (List Nat)
  | 0, _ => []
  | _ + 1, [] => []
  | fuel + 1, l => l.take n :: toBlocksFuel n fuel (l.drop n)

def toBlocks (n : Nat) (l : List Nat) : List (List Nat) :=
  toBlocksFuel n l.length l

/-- State of a `CommitmentReader`: the 64-byte accumulation `buffer`, the fill
cursor `buffer_pos`, and the leaf level `current_tree`. -/
structure CRState where
  buffer : Bytes
  pos : Nat
  tree : List Domain

/-- Model of `CommitmentReader::new`: zeroed 64-byte buffer, cursor 0, empty leaf level. -/
def crInit : CRState := ⟨List.replicate 64 0, 0, []⟩

/-- Overwrite `buffer[pos .. pos + c.length)` with `c` (the effect of the
source writing into `&mut self.buffer[start..start + r]`). -/
def writeAt (buffer : Bytes) (pos : Nat) (c : Bytes) : Bytes :=
  buffer.take pos ++ c ++ buffer.drop (pos + c.length)

/-- Model of `CommitmentReader::try_hash`: hash the whole buffer and reset the cursor,
but only when `buffer_pos < 63` fails, i.e. when the cursor is at 63 or 64. -/
def tryHash (hash : HashFn) (st : CRState) : CRState :=
  if st.pos < 63 then st
  else ⟨st.buffer, 0, st.tree ++ [hash st.buffer]⟩

/-- The body of `<CommitmentReader as Read>::read` once the source has
delivered the byte list `c` into the buffer window: fill, advance the
cursor by the count read, then `try_hash`. -/
def crReadStep (hash : HashFn) (st : CRState) (c : Bytes) : CRState :=
  tryHash hash ⟨writeAt st.buffer st.pos c, st.pos + c.length, st.tree⟩

/-- A full call to `<CommitmentReader as Read>::read` with a destination
buffer of length `destLen`, where the wrapped source delivers the bytes
`delivered`.  The slice handed to the source is
`buffer[pos .. pos + min(64 - pos, destLen))`, so at most that many bytes can
arrive (enforced with `take`).  Returns the new state and the returned count. -/
def crReadCall (hash : HashFn) (st : CRState) (destLen : Nat) (delivered : Bytes) :
    CRState × Nat :=
  let c := delivered.take (min (64 - st.pos) destLen)
  (crReadStep hash st c, c.length)

/-- Model of `CommitmentReader::reset`: cursor to 0, leaf level cleared, buffer kept. -/
def crReset (st : CRState) : CRState := ⟨st.buffer, 0, []⟩

/-- The buffer capacity used by `add_piece`'s `BufReader`/`BufWriter` and by
the `io::copy` loop (`CHUNK_SIZE` in `lib.rs`, 64 MiB).  Any value at least 64
behaves identically in these models, since a read call fills at most the
64 - pos remaining buffer bytes. -/
def copyBufLen : Nat := 64 * 1024 * 1024

/-- State of a `ChunksReader`: the inner `CommitmentReader`, the running byte
counter `read_pos` and the chunk-root list. -/
structure CKState where
  inner : CRState
  readPos : Nat
  roots : List Domain

/-- Model of `ChunksReader::new`: fresh inner reader, counter 0, no chunk roots. -/
def ckInit : CKState := ⟨crInit, 0, []⟩

/-- The boundary check at the top of `<ChunksReader as io::Read>::read`: when
`read_pos >= chunk_size`, compute the inner reader's root, append it to the
chunk-root list, reset the inner reader and zero the counter. -/
def ckBoundary (hash : HashFn) (cs : Nat) (st : CKState) : Except RedError CKState :=
  if cs ≤ st.readPos then
    match compute hash st.inner.tree with
    | .error e => .error e
    | .ok root => .ok ⟨crReset st.inner, 0, st.roots ++ [root]⟩
  else .ok st

/-- A full call to `<ChunksReader as io::Read>::read`: boundary check, then
delegate to the inner reader and add the count to `read_pos`. -/
def ckReadCall (hash : HashFn) (cs : Nat) (st : CKState) (destLen : Nat)
    (delivered : Bytes) : Except RedError (CKState × Nat) :=
  match ckBoundary hash cs st with
  | .error e => .error e
  | .ok st1 =>
    let res := crReadCall hash st1.inner destLen delivered
    .ok (⟨res.1, st1.readPos + res.2, st1.roots⟩, res.2)

/-- The `io::copy` loop from `add_piece`, driving a `ChunksReader`: issue one
read per delivery and accumulate the total byte count `n`; a panic inside a
read aborts the copy (the error carries the bytes copied up to that point).
The loop ends after the source is exhausted; the final empty delivery plays
the role of the read call that returns `Ok(0)` and stops `io::copy`. -/
def ckCopy (hash : HashFn) (cs : Nat) : CKState → Nat → List Bytes →
    Except (RedError × Nat) (CKState × Nat)
  | st, n, [] => .ok (st, n)
  | st, n, d :: ds =>
    match ckReadCall hash cs st copyBufLen d with
    | .error e => .error (e, n)
    | .ok (st', r) => ckCopy hash cs st' (n + r) ds

/-- Stream a byte string through a `ChunksReader` the way `add_piece` does: a
fully-buffered source delivers `min(64 - pos, remaining)` bytes per call, so
the deliveries are the 64-byte blocks of the data followed by the final
zero-length read that ends `io::copy`. -/
def ckStream (hash : HashFn) (cs : Nat) (data : Bytes) :
    Except (RedError × Nat) (CKState × Nat) :=
  ckCopy hash cs ckInit 0 (toBlocks 64 data ++ [[]])

/-- The chunk-root list after running a `ChunksReader` over a delivery list. -/
def ckRunRoots (hash : HashFn) (cs : Nat) (ds : List Bytes) :
    Except RedError (List Domain) :=
  match ckCopy hash cs ckInit 0 ds with
  | .error (e, _) => .error e
  | .ok (st, _) => .ok st.roots

/-- The chunk-root list after streaming `data` (with the final zero read). -/
def ckStreamRoots (hash : HashFn) (cs : Nat) (data : Bytes) :
    Except RedError (List Domain) :=
  ckRunRoots hash cs (toBlocks 64 data ++ [[]])

/-- Run a `ChunksReader` over a delivery list, then `finish()`. -/
def ckRunCommit (hash : HashFn) (cs : Nat) (ds : List Bytes) :
    Except RedError Domain :=
  match ckCopy hash cs ckInit 0 ds with
  | .error (e, _) => .error e
  | .ok (st, _) => finishReduce hash st.roots

/-- The commitment produced by streaming `data` through a `ChunksReader` with
chunk size `cs` and calling `finish()`. -/
def chunkedCommit (hash : HashFn) (cs : Nat) (data : Bytes) :
    Except RedError Domain :=
  ckRunCommit hash cs (toBlocks 64 data ++ [[]])

/-- Drive a bare `CommitmentReader` over a delivery list (the reference
single-pass use, as in the crate's own test: `io::copy` into a sink). -/
def crRun (hash : HashFn) (st : CRState) (ds : List Bytes) : CRState :=
  ds.foldl (fun s d => (crReadCall hash s copyBufLen d).1) st

/-- Stream a byte string through a single `CommitmentReader` without
chunking. -/
def crStream (hash : HashFn) (data : Bytes) : CRState :=
  crRun hash crInit (toBlocks 64 data ++ [[]])

/-- The reference commitment: stream the whole padded byte string through one
`CommitmentReader` and call `compute()` once. -/
def unchunkedCommit (hash : HashFn) (data : Bytes) : Except RedError Domain :=
  compute hash (crStream hash data).tree

/-- The leaf level produced by one chunk of padded bytes: the hash of each
64-byte block. -/
def leafHashes (hash : HashFn) (chunk : Bytes) : List Domain :=
  (toBlocks 64 chunk).map hash

/-- Model of `u64::is_power_of_two` from the Rust standard library, modelled by its
mathematical specification (repeated halving), with a fuel argument for
structural recursion; `isPow2_iff` ties it to `∃ k, n = 2 ^ k`. -/
def isPow2Fuel : Nat → Nat → Bool
  | 0, _ => false
  | fuel + 1, n =>
    if n = 0 then false
    else if n = 1 then true
    else if n % 2 = 1 then false
    else isPow2Fuel fuel (n / 2)

def isPow2 (n : Nat) : Bool := isPow2Fuel n n

/-- The external piece-alignment collaborator's result:
`{left_bytes, right_bytes}` in unpadded bytes. -/
structure PieceAlignment where
  leftBytes : Nat
  rightBytes : Nat

/-- The error taxonomy of `add_piece` (`anyhow` errors in the source), plus
`reduceFailure` for a panic escaping from the reduction machinery. -/
inductive APError where
  | invalidSize : APError
  | emptySource : APError
  | sizeMismatch : APError
  | reduceFailure : RedError → APError
deriving DecidableEq

/-- Observable I/O of one `add_piece` call: every byte handed to the target
writer, in order, and the number of padded bytes pulled from the source. -/
structure APTrace where
  targetBytes : Bytes
  sourceConsumed : Nat
deriving DecidableEq

/-- Model of `ensure_piece_size`: the declared unpadded size must be at least the
configured minimum and its padded size must be a power of two. -/
def ensurePieceSize (toPadded : Nat → Nat) (minSize pieceSize : Nat) : Bool :=
  decide (minSize ≤ pieceSize) && isPow2 (toPadded pieceSize)

/-- Model of `add_piece` from `lib.rs`, with the external collaborators as parameters:
`toPadded`/`fromPadded` are the unpadded/padded byte-amount conversions of the
`fr32`/`filecoin_proofs` crates, `minSize` the configured minimum piece size,
`align` the result of the external alignment arithmetic, and `paddedSource`
the byte stream produced by the external `Fr32Reader` padding transform.
`chunkSize` is a parameter here; the source instantiates it with `CHUNK_SIZE`
(see `add_piece`).  Returns the result (commitment plus unpadded size, and
total written `left + right + piece_size`) together with the I/O trace. -/
def addPieceModel (hash : HashFn) (toPadded fromPadded : Nat → Nat)
    (minSize chunkSize : Nat) (align : PieceAlignment) (pieceSize : Nat)
    (paddedSource : Bytes) : Except APError ((Domain × Nat) × Nat) × APTrace :=
  if ensurePieceSize toPadded minSize pieceSize = false then
    (.error .invalidSize, ⟨[], 0⟩)
  else
    let leftZeros : Bytes := List.replicate (toPadded align.leftBytes) 0
    match ckCopy hash chunkSize ckInit 0 (toBlocks 64 paddedSource ++ [[]]) with
    | .error (e, n) =>
      (.error (.reduceFailure e), ⟨leftZeros ++ paddedSource.take n, n⟩)
    | .ok (st, n) =>
      if n = 0 then
        (.error .emptySource, ⟨leftZeros ++ paddedSource.take n, n⟩)
      else if fromPadded n ≠ pieceSize then
        (.error .sizeMismatch, ⟨leftZeros ++ paddedSource.take n, n⟩)
      else
        let rightZeros : Bytes := List.replicate (toPadded align.rightBytes) 0
        match finishReduce hash st.roots with
        | .error e =>
          (.error (.reduceFailure e),
            ⟨leftZeros ++ paddedSource.take n ++ rightZeros, n⟩)
        | .ok comm =>
          (.ok ((comm, fromPadded n),
              align.leftBytes + align.rightBytes + pieceSize),
            ⟨leftZeros ++ paddedSource.take n ++ rightZeros, n⟩)

/-- The fixed chunk size used by `add_piece` (64 MiB). -/
def CHUNK_SIZE : Nat := 64 * 1024 * 1024

/-- The source's `add_piece`, with its hard-coded `CHUNK_SIZE`. -/
def add_piece (hash : HashFn) (toPadded fromPadded : Nat → Nat) (minSize : Nat)
    (align : PieceAlignment) (pieceSize : Nat) (paddedSource : Bytes) :
    Except APError ((Domain × Nat) × Nat) × APTrace :=
  addPieceModel hash toPadded fromPadded minSize CHUNK_SIZE align pieceSize
    paddedSource

/-- The external `fr32` unpadded-to-padded byte conversion (every 127 unpadded
bytes become 128 padded bytes); used only to instantiate witnesses. -/
def fr32Padded (n : Nat) : Nat := n + n / 127

/-- The external padded-to-unpadded byte conversion; used only to instantiate
witnesses. -/
def fr32Unpadded (p : Nat) : Nat := p - p / 128

/-- A concrete stand-in hasher used only to instantiate witnesses and
counterexamples: 32 bytes, each the sum of the input bytes mod 256. -/
def toyHash : HashFn := fun l => List.replicate 32 (l.sum % 256)

/-- Delivery pattern for the misaligned-chunk scenario: two 160-byte chunks
arriving as 64 + 64 + 32 bytes each, then the final zero-length read.  The
32-byte tails sit in the accumulation buffer, unhashed, when the chunk
boundary fires. -/
def c10DeliveriesA : List Bytes :=
  [List.replicate 64 1, List.replicate 64 1, List.replicate 32 5,
   List.replicate 64 1, List.replicate 64 1, List.replicate 32 6, []]

/-- Same pattern as `c10DeliveriesA` but with different bytes in the first
chunk's unhashed 32-byte tail. -/
def c10DeliveriesB : List Bytes :=
  [List.replicate 64 1, List.replicate 64 1, List.replicate 32 9,
   List.replicate 64 1, List.replicate 64 1, List.replicate 32 6, []]

theorem computeRowT_nil (hash : HashFn) : computeRowT hash [] = [] := rfl

theorem computeRowT_single (hash : HashFn) (a : Domain) :
    computeRowT hash [a] = [] := rfl

theorem computeRowT_cons (hash : HashFn) (a b : Domain) (rest : List Domain) :
    computeRowT hash (a :: b :: rest) = hash (a ++ b) :: computeRowT hash rest := rfl

theorem length_computeRowT (hash : HashFn) :
    ∀ l : List Domain, (computeRowT hash l).length = l.length / 2
  | [] => rfl
  | [_] => by simp [computeRowT]
  | _ :: _ :: rest => by
    simp [computeRowT, length_computeRowT hash rest]
    omega

theorem computeRow_even (hash : HashFn) :
    ∀ l : List Domain, 2 ∣ l.length → computeRow hash l = .ok (computeRowT hash l)
  | [], _ => rfl
  | [_], h => by simp at h
  | a :: b :: rest, h => by
    have hr : 2 ∣ rest.length := by simp at h; omega
    simp [computeRow, computeRowT, computeRow_even hash rest hr]

theorem computeRow_odd (hash : HashFn) :
    ∀ l : List Domain, ¬ 2 ∣ l.length → computeRow hash l = .error .oobPairRead
  | [], h => by simp at h
  | [_], _ => rfl
  | a :: b :: rest, h => by
    have hr : ¬ 2 ∣ rest.length := by simp at h ⊢; omega
    simp [computeRow, computeRow_odd hash rest hr]

theorem computeRow_ok_length (hash : HashFn) (l r : List Domain)
    (h : computeRow hash l = .ok r) : l.length = 2 * r.length := by
  by_cases he : 2 ∣ l.length
  · rw [computeRow_even hash l he] at h
    cases h
    have := length_computeRowT hash l
    omega
  · rw [computeRow_odd hash l he] at h
    cases h

theorem reduceLoopFuel_irrel (hash : HashFn) :
    ∀ f₁ : Nat, ∀ row : List Domain, ∀ f₂ : Nat, row.length ≤ f₁ → row.length ≤ f₂ →
      reduceLoopFuel hash f₁ row = reduceLoopFuel hash f₂ row
  | 0, row, f₂, h₁, _ => by
    have : row = [] := List.length_eq_zero.mp (Nat.le_zero.mp h₁)
    subst this
    cases f₂ <;> simp [reduceLoopFuel]
  | f₁ + 1, row, f₂, h₁, h₂ => by
    by_cases hl : row.length ≤ 1
    · cases f₂ with
      | zero =>
        have : row = [] := List.length_eq_zero.mp (Nat.le_zero.mp h₂)
        subst this
        simp [reduceLoopFuel]
      | succ g => simp [reduceLoopFuel, hl]
    · have hf₂ : ∃ g, f₂ = g + 1 := by
        cases f₂ with
        | zero => omega
        | succ g => exact ⟨g, rfl⟩
      obtain ⟨g, rfl⟩ := hf₂
      simp only [reduceLoopFuel, hl, if_false]
      cases hcr : computeRow hash row with
      | error e => rfl
      | ok next =>
        have hlen := computeRow_ok_length hash row next hcr
        exact reduceLoopFuel_irrel hash f₁ next g (by omega) (by omega)

/-- Unfolding equation for `reduceLoop` matching the source's `while` loop. -/
theorem reduceLoop_eq (hash : HashFn) (row : List Domain) :
    reduceLoop hash row =
      if row.length ≤ 1 then .ok row
      else
        match computeRow hash row with
        | .error e => .error e
        | .ok next => reduceLoop hash next := by
  by_cases hl : row.length ≤ 1
  · rw [if_pos hl]
    rcases row with _ | ⟨a, _ | ⟨b, t⟩⟩
    · rfl
    · rfl
    · simp at hl
  · have hg : ∃ g, row.length = g + 1 := ⟨row.length - 1, by omega⟩
    obtain ⟨g, hg⟩ := hg
    rw [if_neg hl]
    unfold reduceLoop
    rw [hg]
    simp only [reduceLoopFuel]
    rw [if_neg hl]
    cases hcr : computeRow hash row with
    | error e => rfl
    | ok next =>
      have hlen := computeRow_ok_length hash row next hcr
      exact reduceLoopFuel_irrel hash g next next.length (by omega) (by omega)

theorem reduceLoop_ok_length (hash : HashFn) :
    ∀ f : Nat, ∀ row out : List Domain, row.length ≤ f →
      reduceLoopFuel hash f row = .ok out → out.length ≤ 1
  | 0, row, out, h, hout => by
    cases hout
    omega
  | f + 1, row, out, h, hout => by
    by_cases hl : row.length ≤ 1
    · simp [reduceLoopFuel, hl] at hout
      subst hout
      exact hl
    · simp only [reduceLoopFuel, hl, if_false] at hout
      cases hcr : computeRow hash row with
      | error e => rw [hcr] at hout; cases hout
      | ok next =>
        rw [hcr] at hout
        have hlen := computeRow_ok_length hash row next hcr
        exact reduceLoop_ok_length hash f next out (by omega) hout

theorem rowIter_add (hash : HashFn) :
    ∀ a b : Nat, ∀ l : List Domain,
      rowIter hash (a + b) l = rowIter hash b (rowIter hash a l)
  | 0, b, l => by simp [rowIter]
  | a + 1, b, l => by
    have : a + 1 + b = (a + b) + 1 := by omega
    rw [this]
    show rowIter hash (a + b) (computeRowT hash l) = _
    rw [rowIter_add hash a b (computeRowT hash l)]
    rfl

theorem computeRowT_append (hash : HashFn) :
    ∀ A B : List Domain, 2 ∣ A.length →
      computeRowT hash (A ++ B) = computeRowT hash A ++ computeRowT hash B
  | [], B, _ => by simp [computeRowT]
  | [_], B, h => by simp at h
  | a :: b :: t, B, h => by
    have ht : 2 ∣ t.length := by simp at h; omega
    simp only [List.cons_append, computeRowT_cons]
    rw [computeRowT_append hash t B ht]

theorem rowIter_append (hash : HashFn) :
    ∀ a : Nat, ∀ A B : List Domain, 2 ^ a ∣ A.length →
      rowIter hash a (A ++ B) = rowIter hash a A ++ rowIter hash a B
  | 0, A, B, _ => rfl
  | a + 1, A, B, h => by
    have h2 : 2 ∣ A.length := dvd_trans (dvd_pow_self 2 (Nat.succ_ne_zero a)) h
    show rowIter hash a (computeRowT hash (A ++ B)) = _
    rw [computeRowT_append hash A B h2]
    have hlen : 2 ^ a ∣ (computeRowT hash A).length := by
      obtain ⟨c, hc⟩ := h
      refine ⟨c, ?_⟩
      rw [length_computeRowT, hc, pow_succ]
      have hd : 2 ^ a * 2 * c = 2 ^ a * c * 2 := by ring
      rw [hd]
      omega
    exact rowIter_append hash a (computeRowT hash A) (computeRowT hash B) hlen

theorem length_rowIter (hash : HashFn) :
    ∀ a : Nat, ∀ l : List Domain, 2 ^ a ∣ l.length →
      (rowIter hash a l).length = l.length / 2 ^ a
  | 0, l, _ => by simp [rowIter]
  | a + 1, l, h => by
    show (rowIter hash a (computeRowT hash l)).length = _
    obtain ⟨c, hc⟩ := h
    have hlen : (computeRowT hash l).length = 2 ^ a * c := by
      rw [length_computeRowT, hc, pow_succ]
      have hd : 2 ^ a * 2 * c = 2 ^ a * c * 2 := by ring
      rw [hd]
      omega
    rw [length_rowIter hash a (computeRowT hash l) ⟨c, hlen⟩, hlen, hc]
    have hp : (0:Nat) < 2 ^ a := by positivity
    have hp1 : (0:Nat) < 2 ^ (a + 1) := by positivity
    rw [Nat.mul_div_cancel_left c hp, Nat.mul_div_cancel_left c hp1]

theorem rowIter_pow2_singleton (hash : HashFn) (a : Nat) (l : List Domain)
    (h : l.length = 2 ^ a) : rowIter hash a l = [mroot hash a l] := by
  have hdvd : 2 ^ a ∣ l.length := h ▸ dvd_refl _
  have hp : (0:Nat) < 2 ^ a := by positivity
  have hlen : (rowIter hash a l).length = 1 := by
    rw [length_rowIter hash a l hdvd, h, Nat.div_self hp]
  obtain ⟨d, hd⟩ := List.length_eq_one.mp hlen
  rw [hd]
  simp [mroot, hd]

theorem reduceLoop_pow2 (hash : HashFn) :
    ∀ a : Nat, ∀ l : List Domain, l.length = 2 ^ a →
      reduceLoop hash l = .ok (rowIter hash a l)
  | 0, l, h => by
    rw [reduceLoop_eq, if_pos (by omega)]
    rfl
  | a + 1, l, h => by
    have hge : ¬ l.length ≤ 1 := by
      rw [h]
      have h21 : 2 ^ 1 ≤ 2 ^ (a + 1) := Nat.pow_le_pow_right (by omega) (by omega)
      rw [pow_one] at h21
      omega
    rw [reduceLoop_eq, if_neg hge]
    have h2 : 2 ∣ l.length := by
      rw [h, pow_succ]
      exact ⟨2 ^ a, by ring⟩
    rw [computeRow_even hash l h2]
    have hlen : (computeRowT hash l).length = 2 ^ a := by
      rw [length_computeRowT, h, pow_succ]
      omega
    show reduceLoop hash (computeRowT hash l) = _
    rw [reduceLoop_pow2 hash a (computeRowT hash l) hlen]
    rfl

theorem finishReduce_pow2 (hash : HashFn) (a : Nat) (l : List Domain)
    (h : l.length = 2 ^ a) : finishReduce hash l = .ok (mroot hash a l) := by
  unfold finishReduce
  rw [reduceLoop_pow2 hash a l h, rowIter_pow2_singleton hash a l h]
  rfl

theorem mroot_succ (hash : HashFn) (a : Nat) (l : List Domain) :
    mroot hash (a + 1) l = mroot hash a (computeRowT hash l) := rfl

theorem compute_pow2 (hash : HashFn) (a : Nat) (l : List Domain)
    (ha : 1 ≤ a) (h : l.length = 2 ^ a) : compute hash l = .ok (mroot hash a l) := by
  obtain ⟨b, rfl⟩ : ∃ b, a = b + 1 := ⟨a - 1, by omega⟩
  have h2 : 2 ∣ l.length := by
    rw [h, pow_succ]
    exact ⟨2 ^ b, by ring⟩
  have hlen : (computeRowT hash l).length = 2 ^ b := by
    rw [length_computeRowT, h, pow_succ]
    omega
  simp only [compute, computeRow_even hash l h2,
    reduceLoop_pow2 hash b (computeRowT hash l) hlen,
    rowIter_pow2_singleton hash b (computeRowT hash l) hlen,
    List.getLast?_singleton]
  rw [mroot_succ]

theorem reduceLoop_not_pow2 (hash : HashFn) (l : List Domain)
    (hne : l ≠ []) (hnp : ¬ ∃ k, l.length = 2 ^ k) :
    reduceLoop hash l = .error .oobPairRead := by
  have hpos : 0 < l.length := List.length_pos.mpr hne
  have hone : l.length ≠ 1 := fun h => hnp ⟨0, by omega⟩
  have hge : ¬ l.length ≤ 1 := by omega
  rw [reduceLoop_eq, if_neg hge]
  by_cases he : 2 ∣ l.length
  · rw [computeRow_even hash l he]
    have hlen := length_computeRowT hash l
    have hne' : computeRowT hash l ≠ [] := by
      intro hnil
      rw [hnil] at hlen
      simp at hlen
      omega
    have hnp' : ¬ ∃ k, (computeRowT hash l).length = 2 ^ k := by
      rintro ⟨k, hk⟩
      refine hnp ⟨k + 1, ?_⟩
      rw [hk] at hlen
      rw [pow_succ]
      omega
    show reduceLoop hash (computeRowT hash l) = _
    exact reduceLoop_not_pow2 hash (computeRowT hash l) hne' hnp'
  · rw [computeRow_odd hash l he]
termination_by l.length
decreasing_by
  have := length_computeRowT hash l
  omega

theorem compute_not_pow2 (hash : HashFn) (l : List Domain)
    (hne : l ≠ []) (hnp : ¬ ∃ k, l.length = 2 ^ k) :
    compute hash l = .error .oobPairRead := by
  by_cases he : 2 ∣ l.length
  · have hlen := length_computeRowT hash l
    have hne' : computeRowT hash l ≠ [] := by
      intro hnil
      have hpos : 0 < l.length := List.length_pos.mpr hne
      rw [hnil] at hlen
      simp at hlen
      omega
    have hnp' : ¬ ∃ k, (computeRowT hash l).length = 2 ^ k := by
      rintro ⟨k, hk⟩
      refine hnp ⟨k + 1, ?_⟩
      rw [hk] at hlen
      rw [pow_succ]
      omega
    simp only [compute, computeRow_even hash l he,
      reduceLoop_not_pow2 hash (computeRowT hash l) hne' hnp']
  · simp only [compute, computeRow_odd hash l he]

theorem compute_singleton (hash : HashFn) (l : List Domain)
    (h : l.length = 1) : compute hash l = .error .oobPairRead := by
  obtain ⟨d, rfl⟩ := List.length_eq_one.mp h
  rfl

theorem finishReduce_not_pow2 (hash : HashFn) (l : List Domain)
    (hne : l ≠ []) (hnp : ¬ ∃ k, l.length = 2 ^ k) :
    finishReduce hash l = .error .oobPairRead := by
  simp only [finishReduce, reduceLoop_not_pow2 hash l hne hnp]

theorem finishReduce_nil (hash : HashFn) :
    finishReduce hash [] = .error .expectNone := rfl

theorem compute_nil (hash : HashFn) :
    compute hash [] = .error .expectNone := rfl

theorem finishReduce_expectNone_iff (hash : HashFn) (l : List Domain) :
    finishReduce hash l = .error .expectNone ↔ l = [] := by
  constructor
  · intro h
    by_contra hne
    by_cases hp : ∃ k, l.length = 2 ^ k
    · obtain ⟨k, hk⟩ := hp
      rw [finishReduce_pow2 hash k l hk] at h
      cases h
    · rw [finishReduce_not_pow2 hash l hne hp] at h
      cases h
  · rintro rfl
    exact finishReduce_nil hash

theorem compute_expectNone_iff (hash : HashFn) (l : List Domain) :
    compute hash l = .error .expectNone ↔ l = [] := by
  constructor
  · intro h
    by_contra hne
    by_cases hp : ∃ k, l.length = 2 ^ k
    · obtain ⟨k, hk⟩ := hp
      cases k with
      | zero =>
        rw [compute_singleton hash l (by rw [hk]; rfl)] at h
        cases h
      | succ b =>
        rw [compute_pow2 hash (b + 1) l (by omega) hk] at h
        cases h
    · rw [compute_not_pow2 hash l hne hp] at h
      cases h
  · rintro rfl
    exact compute_nil hash

theorem toBlocksFuel_irrel (n : Nat) (hn : 0 < n) :
    ∀ f₁ : Nat, ∀ l : List Nat, ∀ f₂ : Nat, l.length ≤ f₁ → l.length ≤ f₂ →
      toBlocksFuel n f₁ l = toBlocksFuel n f₂ l
  | 0, l, f₂, h₁, _ => by
    have : l = [] := List.length_eq_zero.mp (Nat.le_zero.mp h₁)
    subst this
    cases f₂ <;> rfl
  | f₁ + 1, l, f₂, h₁, h₂ => by
    cases l with
    | nil => cases f₂ <;> rfl
    | cons x xs =>
      have hf₂ : ∃ g, f₂ = g + 1 := ⟨f₂ - 1, by simp at h₂; omega⟩
      obtain ⟨g, rfl⟩ := hf₂
      show ((x :: xs).take n :: toBlocksFuel n f₁ ((x :: xs).drop n)) =
        ((x :: xs).take n :: toBlocksFuel n g ((x :: xs).drop n))
      have hd : ((x :: xs).drop n).length = (x :: xs).length - n := by
        simp
      have hlen : (x :: xs).length = xs.length + 1 := by simp
      congr 1
      exact toBlocksFuel_irrel n hn f₁ ((x :: xs).drop n) g (by omega) (by omega)

theorem toBlocks_nil (n : Nat) : toBlocks n [] = [] := rfl

theorem toBlocks_cons (n : Nat) (hn : 0 < n) (l : List Nat) (hne : l ≠ []) :
    toBlocks n l = l.take n :: toBlocks n (l.drop n) := by
  cases l with
  | nil => exact absurd rfl hne
  | cons x xs =>
    show toBlocksFuel n (xs.length + 1) (x :: xs) = _
    show ((x :: xs).take n :: toBlocksFuel n xs.length ((x :: xs).drop n)) = _
    congr 1
    have hd : ((x :: xs).drop n).length = (x :: xs).length - n := by simp
    have hlen : (x :: xs).length = xs.length + 1 := by simp
    exact toBlocksFuel_irrel n hn xs.length ((x :: xs).drop n) ((x :: xs).drop n).length
      (by omega) (by omega)

theorem toBlocks_flatten (n : Nat) (hn : 0 < n) (l : List Nat) :
    (toBlocks n l).flatten = l := by
  by_cases hne : l = []
  · subst hne
    rfl
  · rw [toBlocks_cons n hn l hne]
    have hlt : (l.drop n).length < l.length := by
      have hpos : 0 < l.length := List.length_pos.mpr hne
      simp
      omega
    rw [List.flatten_cons, toBlocks_flatten n hn (l.drop n), List.take_append_drop]
termination_by l.length

theorem toBlocks_block_length (n : Nat) (hn : 0 < n) (l : List Nat)
    (hdvd : n ∣ l.length) : ∀ b ∈ toBlocks n l, b.length = n := by
  by_cases hne : l = []
  · subst hne
    intro b hb
    simp [toBlocks_nil] at hb
  · rw [toBlocks_cons n hn l hne]
    intro b hb
    have hpos : 0 < l.length := List.length_pos.mpr hne
    have hle : n ≤ l.length := Nat.le_of_dvd hpos hdvd
    rcases List.mem_cons.mp hb with hb | hb
    · rw [hb, List.length_take]
      omega
    · have hdvd' : n ∣ (l.drop n).length := by
        simp
        exact Nat.dvd_sub' hdvd (dvd_refl n)
      have hlt : (l.drop n).length < l.length := by
        simp
        omega
      exact toBlocks_block_length n hn (l.drop n) hdvd' b hb
termination_by l.length

theorem toBlocks_count (n : Nat) (hn : 0 < n) (l : List Nat)
    (hdvd : n ∣ l.length) : (toBlocks n l).length = l.length / n := by
  by_cases hne : l = []
  · subst hne
    simp [toBlocks_nil]
  · rw [toBlocks_cons n hn l hne]
    have hpos : 0 < l.length := List.length_pos.mpr hne
    have hle : n ≤ l.length := Nat.le_of_dvd hpos hdvd
    have hdvd' : n ∣ (l.drop n).length := by
      simp
      exact Nat.dvd_sub' hdvd (dvd_refl n)
    have hlt : (l.drop n).length < l.length := by
      simp
      omega
    obtain ⟨c, hc⟩ := hdvd
    cases c with
    | zero => rw [hc] at hpos; simp at hpos
    | succ c' =>
      rw [List.length_cons, toBlocks_count n hn (l.drop n) hdvd', List.length_drop, hc,
        Nat.mul_succ, Nat.add_sub_cancel, Nat.mul_div_cancel_left c' hn,
        ← Nat.mul_succ, Nat.mul_div_cancel_left (c' + 1) hn]
termination_by l.length

theorem toBlocks_append (n : Nat) (hn : 0 < n) (A B : List Nat)
    (hdvd : n ∣ A.length) :
    toBlocks n (A ++ B) = toBlocks n A ++ toBlocks n B := by
  by_cases hne : A = []
  · subst hne
    rfl
  · have hpos : 0 < A.length := List.length_pos.mpr hne
    have hle : n ≤ A.length := Nat.le_of_dvd hpos hdvd
    have hab : (A ++ B) ≠ [] := by
      simp [hne]
    rw [toBlocks_cons n hn (A ++ B) hab, toBlocks_cons n hn A hne]
    have htake : (A ++ B).take n = A.take n := by
      rw [List.take_append_eq_append_take]
      have : n - A.length = 0 := by omega
      rw [this]
      simp
    have hdrop : (A ++ B).drop n = A.drop n ++ B := by
      rw [List.drop_append_eq_append_drop]
      have : n - A.length = 0 := by omega
      rw [this]
      simp
    have hdvd' : n ∣ (A.drop n).length := by
      simp
      exact Nat.dvd_sub' hdvd (dvd_refl n)
    have hlt : (A.drop n).length < A.length := by
      simp
      omega
    rw [htake, hdrop, toBlocks_append n hn (A.drop n) B hdvd']
    simp
termination_by A.length

theorem toBlocks_of_chunks (m cs : Nat) (hm : 0 < m) (hcs : 0 < cs)
    (hmcs : m ∣ cs) (l : List Nat) (hdvd : cs ∣ l.length) :
    toBlocks m l = ((toBlocks cs l).map (toBlocks m)).flatten := by
  by_cases hne : l = []
  · subst hne
    rfl
  · have hpos : 0 < l.length := List.length_pos.mpr hne
    have hle : cs ≤ l.length := Nat.le_of_dvd hpos hdvd
    rw [toBlocks_cons cs hcs l hne, List.map_cons, List.flatten_cons]
    have hdvd' : cs ∣ (l.drop cs).length := by
      simp
      exact Nat.dvd_sub' hdvd (dvd_refl cs)
    have hlt : (l.drop cs).length < l.length := by
      simp
      omega
    rw [← toBlocks_of_chunks m cs hm hcs hmcs (l.drop cs) hdvd']
    have htakelen : m ∣ (l.take cs).length := by
      rw [List.length_take]
      have : min cs l.length = cs := by omega
      rw [this]
      exact hmcs
    rw [← toBlocks_append m hm (l.take cs) (l.drop cs) htakelen, List.take_append_drop]
termination_by l.length

theorem crReadCall_nil (hash : HashFn) (st : CRState) (destLen : Nat)
    (hpos : st.pos < 63) : crReadCall hash st destLen [] = (st, 0) := by
  simp [crReadCall, crReadStep, writeAt, tryHash, hpos, List.take_append_drop]

theorem crReadCall_block (hash : HashFn) (st : CRState) (b : Bytes)
    (hpos : st.pos = 0) (hbuf : st.buffer.length = 64) (hb : b.length = 64) :
    crReadCall hash st copyBufLen b = (⟨b, 0, st.tree ++ [hash b]⟩, 64) := by
  obtain ⟨buf, pos, tree⟩ := st
  simp only at hpos hbuf
  subst hpos
  have hmin : min (64 - 0) copyBufLen = 64 := by norm_num [copyBufLen]
  simp only [crReadCall, crReadStep, writeAt, tryHash, hmin]
  rw [List.take_of_length_le (by omega)]
  rw [hb]
  simp only [List.take_zero, Nat.zero_add]
  rw [List.drop_eq_nil_of_le (by omega)]
  simp

theorem crRun_append (hash : HashFn) (st : CRState) (ds₁ ds₂ : List Bytes) :
    crRun hash st (ds₁ ++ ds₂) = crRun hash (crRun hash st ds₁) ds₂ := by
  simp [crRun, List.foldl_append]

theorem crRun_zero_read (hash : HashFn) (st : CRState) (hpos : st.pos < 63) :
    crRun hash st [[]] = st := by
  show (crReadCall hash st copyBufLen []).1 = st
  rw [crReadCall_nil hash st copyBufLen hpos]

theorem crRun_blocks (hash : HashFn) :
    ∀ blocks : List Bytes, ∀ st : CRState, (∀ b ∈ blocks, b.length = 64) →
      st.pos = 0 → st.buffer.length = 64 →
      ∃ buf : Bytes, crRun hash st blocks = ⟨buf, 0, st.tree ++ blocks.map hash⟩ ∧
        buf.length = 64
  | [], st, _, hpos, hbuf => by
    refine ⟨st.buffer, ?_, hbuf⟩
    obtain ⟨buf, pos, tree⟩ := st
    simp only at hpos
    subst hpos
    simp [crRun]
  | b :: bs, st, hall, hpos, hbuf => by
    have hb : b.length = 64 := hall b (by simp)
    have hstep := crReadCall_block hash st b hpos hbuf hb
    obtain ⟨buf, heq, hlen⟩ := crRun_blocks hash bs ⟨b, 0, st.tree ++ [hash b]⟩
      (fun x hx => hall x (by simp [hx])) rfl hb
    refine ⟨buf, ?_, hlen⟩
    show crRun hash st (b :: bs) = _
    rw [show (b :: bs) = [b] ++ bs from rfl, crRun_append]
    have h1 : crRun hash st [b] = ⟨b, 0, st.tree ++ [hash b]⟩ := by
      show (crReadCall hash st copyBufLen b).1 = _
      rw [hstep]
    rw [h1, heq]
    simp

theorem crStream_eq (hash : HashFn) (data : Bytes) (hdvd : 64 ∣ data.length) :
    ∃ buf : Bytes, crStream hash data = ⟨buf, 0, (toBlocks 64 data).map hash⟩ := by
  obtain ⟨buf, heq, hlen⟩ := crRun_blocks hash (toBlocks 64 data) crInit
    (toBlocks_block_length 64 (by omega) data hdvd) rfl (by simp [crInit])
  refine ⟨buf, ?_⟩
  unfold crStream
  rw [crRun_append, heq]
  exact crRun_zero_read hash _ (by simp)

theorem unchunkedCommit_eq (hash : HashFn) (data : Bytes) (hdvd : 64 ∣ data.length) :
    unchunkedCommit hash data = compute hash ((toBlocks 64 data).map hash) := by
  obtain ⟨buf, heq⟩ := crStream_eq hash data hdvd
  unfold unchunkedCommit
  rw [heq]

theorem ckBoundary_lt (hash : HashFn) (cs : Nat) (st : CKState)
    (h : st.readPos < cs) : ckBoundary hash cs st = .ok st := by
  unfold ckBoundary
  rw [if_neg (by omega)]

theorem crReadCall_count_le (hash : HashFn) (st : CRState) (destLen : Nat)
    (d : Bytes) : (crReadCall hash st destLen d).2 ≤ d.length := by
  simp [crReadCall, List.length_take]

theorem ckReadCall_no_boundary (hash : HashFn) (cs : Nat) (st : CKState)
    (destLen : Nat) (d : Bytes) (hlt : st.readPos < cs) :
    ckReadCall hash cs st destLen d =
      .ok (⟨(crReadCall hash st.inner destLen d).1,
             st.readPos + (crReadCall hash st.inner destLen d).2, st.roots⟩,
           (crReadCall hash st.inner destLen d).2) := by
  unfold ckReadCall
  rw [ckBoundary_lt hash cs st hlt]

theorem ckReadCall_block (hash : HashFn) (cs : Nat) (st : CKState) (b : Bytes)
    (hlt : st.readPos < cs) (hpos : st.inner.pos = 0)
    (hbuf : st.inner.buffer.length = 64) (hb : b.length = 64) :
    ckReadCall hash cs st copyBufLen b =
      .ok (⟨⟨b, 0, st.inner.tree ++ [hash b]⟩, st.readPos + 64, st.roots⟩, 64) := by
  rw [ckReadCall_no_boundary hash cs st copyBufLen b hlt,
    crReadCall_block hash st.inner b hpos hbuf hb]

theorem ckCopy_append (hash : HashFn) (cs : Nat) :
    ∀ ds₁ ds₂ : List Bytes, ∀ st : CKState, ∀ n : Nat,
      ckCopy hash cs st n (ds₁ ++ ds₂) =
        match ckCopy hash cs st n ds₁ with
        | .error e => .error e
        | .ok (st', n') => ckCopy hash cs st' n' ds₂
  | [], ds₂, st, n => by simp [ckCopy]
  | d :: ds₁, ds₂, st, n => by
    show ckCopy hash cs st n (d :: (ds₁ ++ ds₂)) = _
    simp only [ckCopy]
    cases hrc : ckReadCall hash cs st copyBufLen d with
    | error e => rfl
    | ok p => exact ckCopy_append hash cs ds₁ ds₂ p.1 (n + p.2)

theorem ckCopy_blocks (hash : HashFn) (cs : Nat) :
    ∀ blocks : List Bytes, ∀ st : CKState, ∀ n : Nat,
      (∀ b ∈ blocks, b.length = 64) → st.inner.pos = 0 →
      st.inner.buffer.length = 64 → st.readPos + 64 * blocks.length ≤ cs →
      ∃ buf : Bytes,
        ckCopy hash cs st n blocks =
          .ok (⟨⟨buf, 0, st.inner.tree ++ blocks.map hash⟩,
                 st.readPos + 64 * blocks.length, st.roots⟩,
               n + 64 * blocks.length) ∧
        buf.length = 64
  | [], st, n, _, hpos, hbuf, _ => by
    refine ⟨st.inner.buffer, ?_, hbuf⟩
    obtain ⟨⟨buf, pos, tree⟩, rp, rts⟩ := st
    simp only at hpos
    subst hpos
    simp [ckCopy]
  | b :: bs, st, n, hall, hpos, hbuf, hle => by
    have hb : b.length = 64 := hall b (by simp)
    have hlt : st.readPos < cs := by
      simp [List.length_cons, Nat.mul_succ] at hle
      omega
    obtain ⟨buf, heq, hlen⟩ := ckCopy_blocks hash cs bs
      ⟨⟨b, 0, st.inner.tree ++ [hash b]⟩, st.readPos + 64, st.roots⟩ (n + 64)
      (fun x hx => hall x (by simp [hx])) rfl hb
      (by simp [List.length_cons, Nat.mul_succ] at hle ⊢; omega)
    refine ⟨buf, ?_, hlen⟩
    have e1 : st.readPos + 64 * (b :: bs).length = st.readPos + 64 + 64 * bs.length := by
      simp [List.length_cons]
      omega
    have e2 : n + 64 * (b :: bs).length = n + 64 + 64 * bs.length := by
      simp [List.length_cons]
      omega
    have e3 : st.inner.tree ++ (b :: bs).map hash =
        (st.inner.tree ++ [hash b]) ++ bs.map hash := by simp
    rw [e1, e2, e3]
    show ckCopy hash cs st n (b :: bs) = _
    simp only [ckCopy, ckReadCall_block hash cs st b hlt hpos hbuf hb]
    exact heq

theorem ckCopy_below (hash : HashFn) (cs : Nat) :
    ∀ ds : List Bytes, ∀ st : CKState, ∀ n : Nat,
      st.readPos + (ds.map List.length).sum < cs →
      ∃ st' : CKState, ∃ r : Nat,
        ckCopy hash cs st n ds = .ok (st', n + r) ∧ st'.roots = st.roots ∧
          r ≤ (ds.map List.length).sum ∧
          st'.readPos ≤ st.readPos + (ds.map List.length).sum
  | [], st, n, _ => ⟨st, 0, by simp [ckCopy], rfl, by simp, by simp⟩
  | d :: ds, st, n, hlt => by
    have hsum : (List.map List.length (d :: ds)).sum =
        d.length + (List.map List.length ds).sum := by simp
    have hlt0 : st.readPos < cs := by omega
    have hr0 : (crReadCall hash st.inner copyBufLen d).2 ≤ d.length :=
      crReadCall_count_le hash st.inner copyBufLen d
    obtain ⟨st', r, heq, hroots, hrle, hrp⟩ := ckCopy_below hash cs ds
      ⟨(crReadCall hash st.inner copyBufLen d).1,
        st.readPos + (crReadCall hash st.inner copyBufLen d).2, st.roots⟩
      (n + (crReadCall hash st.inner copyBufLen d).2)
      (by dsimp only; omega)
    refine ⟨st', (crReadCall hash st.inner copyBufLen d).2 + r, ?_, ?_, ?_, ?_⟩
    · show ckCopy hash cs st n (d :: ds) = _
      simp only [ckCopy, ckReadCall_no_boundary hash cs st copyBufLen d hlt0]
      rw [heq, Nat.add_assoc]
    · rw [hroots]
    · omega
    · dsimp only at hrp
      omega

theorem ckReadCall_boundary (hash : HashFn) (cs : Nat) (st : CKState) (d : Bytes)
    (hge : cs ≤ st.readPos) (rt : Domain)
    (hcmp : compute hash st.inner.tree = .ok rt) :
    ckReadCall hash cs st copyBufLen d =
      .ok (⟨(crReadCall hash (crReset st.inner) copyBufLen d).1,
             0 + (crReadCall hash (crReset st.inner) copyBufLen d).2,
             st.roots ++ [rt]⟩,
           (crReadCall hash (crReset st.inner) copyBufLen d).2) := by
  unfold ckReadCall ckBoundary
  rw [if_pos hge, hcmp]

theorem ckCopy_chunks (hash : HashFn) (cs a : Nat) (ha : 1 ≤ a)
    (hcs : cs = 64 * 2 ^ a) :
    ∀ chunks : List Bytes, ∀ st : CKState, ∀ n : Nat,
      (∀ ch ∈ chunks, ch.length = cs) →
      st.readPos = cs → st.inner.pos = 0 → st.inner.buffer.length = 64 →
      st.inner.tree.length = 2 ^ a →
      ∃ stF : CKState, ∃ nF : Nat,
        ckCopy hash cs st n ((chunks.map (toBlocks 64)).flatten ++ [[]]) =
          .ok (stF, nF) ∧
        stF.roots = st.roots ++ mroot hash a st.inner.tree ::
          chunks.map (fun ch => mroot hash a (leafHashes hash ch))
  | [], st, n, _, hrp, hpos, hbuf, htree => by
    have hcmp : compute hash st.inner.tree = .ok (mroot hash a st.inner.tree) :=
      compute_pow2 hash a st.inner.tree ha htree
    have hnil : crReadCall hash (crReset st.inner) copyBufLen [] =
        (crReset st.inner, 0) :=
      crReadCall_nil hash (crReset st.inner) copyBufLen (by simp [crReset])
    refine ⟨⟨crReset st.inner, 0 + 0, st.roots ++ [mroot hash a st.inner.tree]⟩,
      n + 0, ?_, by simp⟩
    show ckCopy hash cs st n [[]] = _
    simp only [ckCopy,
      ckReadCall_boundary hash cs st [] (by omega) (mroot hash a st.inner.tree) hcmp,
      hnil]
  | ch :: rest, st, n, hall, hrp, hpos, hbuf, htree => by
    have hch : ch.length = cs := hall ch (by simp)
    have hchne : ch ≠ [] := by
      intro hnil
      rw [hnil] at hch
      simp at hch
      have : 0 < 2 ^ a := by positivity
      omega
    have h64cs : (64:Nat) ∣ cs := ⟨2 ^ a, hcs⟩
    have hblock : ∀ b ∈ toBlocks 64 ch, b.length = 64 :=
      toBlocks_block_length 64 (by omega) ch (hch ▸ h64cs)
    have hcount : (toBlocks 64 ch).length = 2 ^ a := by
      rw [toBlocks_count 64 (by omega) ch (hch ▸ h64cs), hch, hcs,
        Nat.mul_div_cancel_left (2 ^ a) (by omega)]
    have hcmp : compute hash st.inner.tree = .ok (mroot hash a st.inner.tree) :=
      compute_pow2 hash a st.inner.tree ha htree
    -- split the first chunk's blocks off the delivery list
    obtain ⟨B, Btail, hsplit⟩ : ∃ B Btail, toBlocks 64 ch = B :: Btail := by
      rw [toBlocks_cons 64 (by omega) ch hchne]
      exact ⟨_, _, rfl⟩
    have hB : B.length = 64 := hblock B (by rw [hsplit]; simp)
    have hBtail : ∀ b ∈ Btail, b.length = 64 := fun b hb =>
      hblock b (by rw [hsplit]; simp [hb])
    have hBtlen : Btail.length = 2 ^ a - 1 := by
      have := hcount
      rw [hsplit] at this
      simp at this
      omega
    -- the first read call of the new chunk: boundary fires, then reads B
    have hfirst : ckReadCall hash cs st copyBufLen B =
        .ok (⟨⟨B, 0, [hash B]⟩, 0 + 64,
              st.roots ++ [mroot hash a st.inner.tree]⟩, 64) := by
      rw [ckReadCall_boundary hash cs st B (by omega) _ hcmp,
        crReadCall_block hash (crReset st.inner) B (by simp [crReset])
          (by simp [crReset, hbuf]) hB]
      simp [crReset]
    -- the rest of the first chunk's blocks: no boundary
    obtain ⟨buf, heqB, hlenB⟩ := ckCopy_blocks hash cs Btail
      ⟨⟨B, 0, [hash B]⟩, 0 + 64, st.roots ++ [mroot hash a st.inner.tree]⟩ (n + 64)
      hBtail rfl hB
      (by
        dsimp only
        rw [hBtlen, hcs]
        have h1 : 0 < 2 ^ a := by positivity
        have h2 : 64 * (2 ^ a - 1) = 64 * 2 ^ a - 64 := by omega
        omega)
    -- apply the induction hypothesis from the state holding the full chunk
    obtain ⟨stF, nF, heqR, hroots⟩ := ckCopy_chunks hash cs a ha hcs rest
      ⟨⟨buf, 0, [hash B] ++ Btail.map hash⟩,
        0 + 64 + 64 * Btail.length, st.roots ++ [mroot hash a st.inner.tree]⟩
      (n + 64 + 64 * Btail.length)
      (fun x hx => hall x (by simp [hx])) (by
        dsimp only
        rw [hBtlen, hcs]
        have h1 : 0 < 2 ^ a := by positivity
        omega)
      rfl hlenB (by
        dsimp only
        rw [hsplit] at hcount
        simp at hcount ⊢
        omega)
    refine ⟨stF, nF, ?_, ?_⟩
    · show ckCopy hash cs st n
        ((toBlocks 64 ch ++ ((rest.map (toBlocks 64)).flatten)) ++ [[]]) = _
      rw [hsplit]
      show ckCopy hash cs st n
        (B :: (Btail ++ (rest.map (toBlocks 64)).flatten ++ [[]])) = _
      simp only [ckCopy, hfirst]
      rw [show Btail ++ (rest.map (toBlocks 64)).flatten ++ [[]] =
        Btail ++ ((rest.map (toBlocks 64)).flatten ++ [[]]) by simp]
      rw [ckCopy_append hash cs Btail ((rest.map (toBlocks 64)).flatten ++ [[]])]
      rw [heqB]
      exact heqR
    · rw [hroots]
      dsimp only
      have hlf : leafHashes hash ch = [hash B] ++ Btail.map hash := by
        rw [leafHashes, hsplit]
        simp
      simp [hlf]

theorem rowIter_nil (hash : HashFn) : ∀ a : Nat, rowIter hash a [] = []
  | 0 => rfl
  | a + 1 => by
    show rowIter hash a (computeRowT hash []) = []
    exact rowIter_nil hash a

theorem rowIter_flatten (hash : HashFn) (a : Nat) :
    ∀ parts : List (List Domain), (∀ p ∈ parts, 2 ^ a ∣ p.length) →
      rowIter hash a parts.flatten = (parts.map (rowIter hash a)).flatten
  | [], _ => by simp [rowIter_nil]
  | p :: ps, hall => by
    rw [List.flatten_cons, rowIter_append hash a p ps.flatten (hall p (by simp)),
      rowIter_flatten hash a ps (fun q hq => hall q (by simp [hq])), List.map_cons,
      List.flatten_cons]

theorem flatten_map_singleton {α β : Type} (f : α → β) :
    ∀ l : List α, (l.map (fun x => [f x])).flatten = l.map f
  | [] => rfl
  | x :: xs => by simp [flatten_map_singleton f xs]

theorem leafHashes_length (hash : HashFn) (chunk : Bytes)
    (hdvd : 64 ∣ chunk.length) :
    (leafHashes hash chunk).length = chunk.length / 64 := by
  simp [leafHashes, toBlocks_count 64 (by omega) chunk hdvd]

theorem ckStream_roots_eq (hash : HashFn) (data : Bytes) (cs a : Nat) (ha : 1 ≤ a)
    (hcs : cs = 64 * 2 ^ a) (hne : data ≠ []) (hdvd : cs ∣ data.length) :
    ∃ stF : CKState, ∃ nF : Nat, ckStream hash cs data = .ok (stF, nF) ∧
      stF.roots =
        (toBlocks cs data).map (fun ch => mroot hash a (leafHashes hash ch)) := by
  have hp : (0:Nat) < 2 ^ a := by positivity
  have hcs0 : 0 < cs := by omega
  have h64cs : (64:Nat) ∣ cs := ⟨2 ^ a, hcs⟩
  have hchall : ∀ ch ∈ toBlocks cs data, ch.length = cs :=
    toBlocks_block_length cs hcs0 data hdvd
  have hrefine : toBlocks 64 data = (((toBlocks cs data).map (toBlocks 64)).flatten) :=
    toBlocks_of_chunks 64 cs (by omega) hcs0 h64cs data hdvd
  obtain ⟨ch1, restC, hsplitC⟩ : ∃ ch1 restC, toBlocks cs data = ch1 :: restC := by
    rw [toBlocks_cons cs hcs0 data hne]
    exact ⟨_, _, rfl⟩
  have hch1 : ch1.length = cs := hchall ch1 (by rw [hsplitC]; simp)
  have hblocks1 : ∀ b ∈ toBlocks 64 ch1, b.length = 64 :=
    toBlocks_block_length 64 (by omega) ch1 (hch1 ▸ h64cs)
  have hcount1 : (toBlocks 64 ch1).length = 2 ^ a := by
    rw [toBlocks_count 64 (by omega) ch1 (hch1 ▸ h64cs), hch1, hcs,
      Nat.mul_div_cancel_left (2 ^ a) (by omega)]
  -- run the first chunk's blocks from the initial state
  obtain ⟨buf, heqB, hlenB⟩ := ckCopy_blocks hash cs (toBlocks 64 ch1) ckInit 0
    hblocks1 rfl (by simp [ckInit, crInit]) (by simp [ckInit]; rw [hcount1, hcs])
  -- then the remaining chunks, with the first chunk's leaves pending
  obtain ⟨stF, nF, heqR, hroots⟩ := ckCopy_chunks hash cs a ha hcs restC
    ⟨⟨buf, 0, ckInit.inner.tree ++ (toBlocks 64 ch1).map hash⟩,
      ckInit.readPos + 64 * (toBlocks 64 ch1).length, ckInit.roots⟩
    (0 + 64 * (toBlocks 64 ch1).length)
    (fun x hx => hchall x (by rw [hsplitC]; simp [hx]))
    (by dsimp only [ckInit]; rw [hcount1, hcs]; omega)
    rfl hlenB
    (by dsimp only [ckInit, crInit]; simp; rw [hcount1])
  refine ⟨stF, nF, ?_, ?_⟩
  · show ckCopy hash cs ckInit 0 (toBlocks 64 data ++ [[]]) = _
    rw [hrefine, hsplitC, List.map_cons, List.flatten_cons, List.append_assoc,
      ckCopy_append hash cs (toBlocks 64 ch1), heqB]
    exact heqR
  · rw [hroots, hsplitC]
    dsimp only [ckInit]
    simp [leafHashes, crInit]

theorem chunkedCommit_eq_unchunked (hash : HashFn) (data : Bytes) (k j : Nat)
    (hk : 7 ≤ k) (hj : 7 ≤ j) (hjk : j ≤ k) (hlen : data.length = 2 ^ k) :
    chunkedCommit hash (2 ^ j) data =
        .ok (mroot hash (k - 6) (leafHashes hash data)) ∧
      unchunkedCommit hash data =
        .ok (mroot hash (k - 6) (leafHashes hash data)) := by
  have hpk : (0:Nat) < 2 ^ k := by positivity
  have hne : data ≠ [] := by
    intro hnil
    rw [hnil] at hlen
    simp at hlen
    omega
  have h64 : (64:Nat) ∣ data.length := by
    rw [hlen, show (64:Nat) = 2 ^ 6 by norm_num]
    exact pow_dvd_pow 2 (by omega)
  have hcsdvd : 2 ^ j ∣ data.length := by
    rw [hlen]
    exact pow_dvd_pow 2 hjk
  have hcs : 2 ^ j = 64 * 2 ^ (j - 6) := by
    conv_lhs => rw [show j = 6 + (j - 6) by omega]
    rw [pow_add]
    norm_num
  have hLlen : (leafHashes hash data).length = 2 ^ (k - 6) := by
    rw [leafHashes_length hash data h64, hlen, show (64:Nat) = 2 ^ 6 by norm_num,
      Nat.pow_div (by omega) (by omega)]
  have hunch : unchunkedCommit hash data =
      .ok (mroot hash (k - 6) (leafHashes hash data)) := by
    rw [unchunkedCommit_eq hash data h64]
    exact compute_pow2 hash (k - 6) (leafHashes hash data) (by omega) hLlen
  obtain ⟨stF, nF, heq, hroots⟩ :=
    ckStream_roots_eq hash data (2 ^ j) (j - 6) (by omega) hcs hne hcsdvd
  have hrootslen : stF.roots.length = 2 ^ (k - j) := by
    rw [hroots, List.length_map, toBlocks_count (2 ^ j) (by positivity) data hcsdvd,
      hlen, Nat.pow_div hjk (by omega)]
  have hfin : finishReduce hash stF.roots = .ok (mroot hash (k - j) stF.roots) :=
    finishReduce_pow2 hash (k - j) stF.roots hrootslen
  have hchu : chunkedCommit hash (2 ^ j) data =
      .ok (mroot hash (k - j) stF.roots) := by
    unfold chunkedCommit ckRunCommit
    have heq' : ckCopy hash (2 ^ j) ckInit 0 (toBlocks 64 data ++ [[]]) =
        .ok (stF, nF) := heq
    rw [heq']
    exact hfin
  have hchall : ∀ ch ∈ toBlocks (2 ^ j) data, ch.length = 2 ^ j :=
    toBlocks_block_length _ (by positivity) data hcsdvd
  have hchlen : ∀ p ∈ (toBlocks (2 ^ j) data).map (leafHashes hash),
      p.length = 2 ^ (j - 6) := by
    intro p hp
    obtain ⟨ch, hch, rfl⟩ := List.mem_map.mp hp
    have h64ch : (64:Nat) ∣ ch.length := by
      rw [hchall ch hch]
      exact ⟨2 ^ (j - 6), hcs⟩
    rw [leafHashes_length hash ch h64ch, hchall ch hch, hcs,
      Nat.mul_div_cancel_left _ (by omega)]
  have hLflat : leafHashes hash data =
      ((toBlocks (2 ^ j) data).map (leafHashes hash)).flatten := by
    unfold leafHashes
    rw [toBlocks_of_chunks 64 (2 ^ j) (by omega) (by positivity)
      ⟨2 ^ (j - 6), hcs⟩ data hcsdvd, List.map_flatten, List.map_map]
    rfl
  have hri : rowIter hash (j - 6)
        (((toBlocks (2 ^ j) data).map (leafHashes hash)).flatten) =
      (toBlocks (2 ^ j) data).map (fun ch => mroot hash (j - 6) (leafHashes hash ch)) := by
    rw [rowIter_flatten hash (j - 6) _ (fun p hp => by rw [hchlen p hp])]
    have hmm : ((toBlocks (2 ^ j) data).map (leafHashes hash)).map (rowIter hash (j - 6)) =
        (toBlocks (2 ^ j) data).map (fun ch => [mroot hash (j - 6) (leafHashes hash ch)]) := by
      rw [List.map_map]
      refine List.map_congr_left ?_
      intro ch hch
      exact rowIter_pow2_singleton hash (j - 6) (leafHashes hash ch)
        (hchlen _ (List.mem_map_of_mem _ hch))
    rw [hmm, flatten_map_singleton]
  have hmadd : ∀ a b : Nat, ∀ l : List Domain,
      mroot hash (a + b) l = mroot hash b (rowIter hash a l) := by
    intro a b l
    unfold mroot
    rw [rowIter_add]
  have halg : mroot hash (k - j) stF.roots =
      mroot hash (k - 6) (leafHashes hash data) := by
    rw [hroots, hLflat, show k - 6 = (j - 6) + (k - j) by omega, hmadd, hri]
  refine ⟨?_, hunch⟩
  rw [hchu, halg]

theorem isPow2Fuel_iff :
    ∀ fuel n : Nat, n ≤ fuel → (isPow2Fuel fuel n = true ↔ ∃ k, n = 2 ^ k)
  | 0, n, h => by
    have : n = 0 := by omega
    subst this
    simp only [isPow2Fuel]
    constructor
    · intro hfalse
      cases hfalse
    · rintro ⟨k, hk⟩
      have : (0:Nat) < 2 ^ k := by positivity
      omega
  | fuel + 1, n, h => by
    by_cases h0 : n = 0
    · subst h0
      simp only [isPow2Fuel, if_pos rfl]
      constructor
      · intro hfalse
        cases hfalse
      · rintro ⟨k, hk⟩
        have : (0:Nat) < 2 ^ k := by positivity
        omega
    · by_cases h1 : n = 1
      · subst h1
        have hval : isPow2Fuel (fuel + 1) 1 = true := by simp [isPow2Fuel]
        rw [hval]
        exact ⟨fun _ => ⟨0, rfl⟩, fun _ => rfl⟩
      · by_cases hodd : n % 2 = 1
        · simp only [isPow2Fuel, if_neg h0, if_neg h1, if_pos hodd]
          constructor
          · intro hfalse
            cases hfalse
          · rintro ⟨k, hk⟩
            cases k with
            | zero => omega
            | succ k' =>
              rw [pow_succ] at hk
              omega
        · simp only [isPow2Fuel, if_neg h0, if_neg h1, if_neg hodd]
          rw [isPow2Fuel_iff fuel (n / 2) (by omega)]
          constructor
          · rintro ⟨k, hk⟩
            exact ⟨k + 1, by rw [pow_succ]; omega⟩
          · rintro ⟨k, hk⟩
            cases k with
            | zero => omega
            | succ k' =>
              refine ⟨k', ?_⟩
              rw [pow_succ] at hk
              omega

theorem isPow2_iff (n : Nat) : isPow2 n = true ↔ ∃ k, n = 2 ^ k :=
  isPow2Fuel_iff n n (le_refl n)

/-- C1: the buffer is supposed to be hashed exactly when the fill cursor
reaches 64, over bytes that were all filled from the source since the last
reset.  The code's `try_hash` instead fires as soon as `buffer_pos >= 63`: on
a fresh reader whose source delivers exactly 63 bytes into a 64-byte
destination, a leaf hash is computed over the 64-byte buffer whose last byte
(the trailing `0` below) was never overwritten with source data, and the
cursor resets.  This contradicts the claim (and `try_hash`'s own doc comment,
"only if the buffers are full"), for every hasher. -/
theorem c1_read63_hashes_stale_byte (hash : HashFn) :
    (crReadCall hash crInit 64 (List.replicate 63 7)).2 = 63 ∧
      (crReadCall hash crInit 64 (List.replicate 63 7)).1.tree =
        [hash (List.replicate 63 7 ++ [0])] ∧
      (crReadCall hash crInit 64 (List.replicate 63 7)).1.pos = 0 := by
  refine ⟨rfl, rfl, rfl⟩

/-- C4 (counterexample): a non-power-of-two chunk-root list does not make the
reduction fail the `expect`/`debug_assert` assertion.  On a 3-element list,
`finish` (and on a 1-element list, `compute`) instead performs the
out-of-bounds 64-byte read of a lone 32-byte element inside the `unsafe`
block, which is not the claimed unrecoverable assertion. -/
theorem c4_counterexample :
    finishReduce toyHash
        [List.replicate 32 1, List.replicate 32 2, List.replicate 32 3] =
      .error .oobPairRead ∧
    compute toyHash [List.replicate 32 1] = .error .oobPairRead ∧
    RedError.oobPairRead ≠ RedError.expectNone := by
  refine ⟨rfl, rfl, by decide⟩

/-- C4 (amended): the reduction panics through the `expect` exactly when the
list is empty; every power-of-two length reduces to exactly one returned
Domain (for `compute`, power-of-two lengths at least 2); any non-empty
non-power-of-two length, and `compute` on a singleton, instead performs the
out-of-bounds pair read inside the `unsafe` block, not an assertion. -/
theorem c4_amended_reduction (hash : HashFn) (l : List Domain) :
    (finishReduce hash l = .error .expectNone ↔ l = []) ∧
    (compute hash l = .error .expectNone ↔ l = []) ∧
    (∀ k : Nat, l.length = 2 ^ k → finishReduce hash l = .ok (mroot hash k l)) ∧
    (∀ k : Nat, 1 ≤ k → l.length = 2 ^ k → compute hash l = .ok (mroot hash k l)) ∧
    (l.length = 1 → compute hash l = .error .oobPairRead) ∧
    (l ≠ [] → (¬ ∃ k, l.length = 2 ^ k) →
      finishReduce hash l = .error .oobPairRead ∧
        compute hash l = .error .oobPairRead) :=
  ⟨finishReduce_expectNone_iff hash l, compute_expectNone_iff hash l,
    fun k hk => finishReduce_pow2 hash k l hk,
    fun k h1 hk => compute_pow2 hash k l h1 hk,
    compute_singleton hash l,
    fun hne hnp =>
      ⟨finishReduce_not_pow2 hash l hne hnp, compute_not_pow2 hash l hne hnp⟩⟩

theorem c4_amended_reduction_witness :
    finishReduce toyHash [] = .error .expectNone :=
  (c4_amended_reduction toyHash []).1.mpr rfl

/-- C5: `ensure_piece_size` runs before any reader or writer is touched; a
piece size below the configured minimum, or whose padded size is not a power
of two, yields the invalid-size error with an empty I/O trace: no byte is
written to the target and none is read from the source. -/
theorem c5_invalid_size_no_io (hash : HashFn) (toPadded fromPadded : Nat → Nat)
    (minSize : Nat) (align : PieceAlignment) (pieceSize : Nat) (src : Bytes)
    (hbad : pieceSize < minSize ∨ isPow2 (toPadded pieceSize) = false) :
    add_piece hash toPadded fromPadded minSize align pieceSize src =
      (.error .invalidSize, ⟨[], 0⟩) := by
  have hb : ensurePieceSize toPadded minSize pieceSize = false := by
    unfold ensurePieceSize
    rcases hbad with h | h
    · simp [Nat.not_le.mpr h]
    · simp [h]
  unfold add_piece addPieceModel
  rw [hb]
  simp

theorem c5_invalid_size_no_io_witness :
    add_piece toyHash fr32Padded fr32Unpadded 127 ⟨0, 0⟩ 100 [5] =
      (.error .invalidSize, ⟨[], 0⟩) :=
  c5_invalid_size_no_io toyHash fr32Padded fr32Unpadded 127 ⟨0, 0⟩ 100 [5]
    (Or.inl (by decide))

/-- C6 (counterexample): a read that fills the buffer (64 bytes delivered
from cursor 0) returns count 64 but leaves the cursor at 0, not at
0 + 64 — the claim's "the cursor advances by that count" fails whenever the
leaf hash fires. -/
theorem c6_counterexample :
    (crReadCall toyHash crInit 64 (List.replicate 64 1)).2 = 64 ∧
      (crReadCall toyHash crInit 64 (List.replicate 64 1)).1.pos = 0 ∧
      (0 : Nat) ≠ 0 + 64 := by
  refine ⟨rfl, rfl, by omega⟩

/-- C6 (amended): for a read call in a reachable state (cursor at most 62,
64-byte buffer) where the source delivers at most
`min(64 - cursor, |dest|)` bytes: the call returns exactly the delivered
count, which is at most `min(64 - cursor, |dest|)`; the delivered bytes are
copied unchanged and in order into the front of the destination (read back
here from the buffer window the code copies to `dest`); the call returns 0
exactly when the source delivered nothing; and the cursor advances by the
count unless the fill position reaches 63 or more, in which case a leaf hash
over the whole buffer is appended and the cursor resets to 0. -/
theorem c6_read_contract (hash : HashFn) (st : CRState) (destLen : Nat)
    (delivered : Bytes) (hbuf : st.buffer.length = 64) (hpos : st.pos ≤ 62)
    (hle : delivered.length ≤ min (64 - st.pos) destLen) :
    (crReadCall hash st destLen delivered).2 = delivered.length ∧
    (crReadCall hash st destLen delivered).2 ≤ min (64 - st.pos) destLen ∧
    (((crReadCall hash st destLen delivered).1.buffer.drop st.pos).take
        delivered.length = delivered) ∧
    ((crReadCall hash st destLen delivered).2 = 0 ↔ delivered = []) ∧
    (crReadCall hash st destLen delivered).1.pos =
      (if st.pos + delivered.length < 63 then st.pos + delivered.length else 0) ∧
    (crReadCall hash st destLen delivered).1.tree =
      (if st.pos + delivered.length < 63 then st.tree
       else st.tree ++ [hash (writeAt st.buffer st.pos delivered)]) := by
  have hc : delivered.take (min (64 - st.pos) destLen) = delivered :=
    List.take_of_length_le hle
  have hcall : crReadCall hash st destLen delivered =
      (crReadStep hash st delivered, delivered.length) := by
    unfold crReadCall
    rw [hc]
  have hslice : ((writeAt st.buffer st.pos delivered).drop st.pos).take
      delivered.length = delivered := by
    unfold writeAt
    have h1 : (st.buffer.take st.pos).length = st.pos := by
      rw [List.length_take]
      omega
    rw [List.append_assoc, List.drop_append_eq_append_drop, h1,
      List.drop_eq_nil_of_le (by omega : (st.buffer.take st.pos).length ≤ st.pos)]
    simp only [Nat.sub_self, List.drop_zero, List.nil_append]
    exact List.take_left delivered _
  rw [hcall]
  refine ⟨rfl, by omega, ?_, ?_, ?_, ?_⟩
  · show (((crReadStep hash st delivered).buffer).drop st.pos).take
        delivered.length = delivered
    have hb : (crReadStep hash st delivered).buffer =
        writeAt st.buffer st.pos delivered := by
      unfold crReadStep tryHash
      split <;> rfl
    rw [hb]
    exact hslice
  · simp [List.length_eq_zero]
  · show (crReadStep hash st delivered).pos = _
    unfold crReadStep tryHash
    by_cases hlt : st.pos + delivered.length < 63
    · rw [if_pos hlt, if_pos hlt]
    · rw [if_neg hlt, if_neg hlt]
  · show (crReadStep hash st delivered).tree = _
    unfold crReadStep tryHash
    by_cases hlt : st.pos + delivered.length < 63
    · rw [if_pos hlt, if_pos hlt]
    · rw [if_neg hlt, if_neg hlt]

theorem c6_read_contract_witness :
    (crReadCall toyHash crInit 10 [1, 2, 3]).2 = 3 ∧
    (crReadCall toyHash crInit 10 [1, 2, 3]).2 ≤ min (64 - crInit.pos) 10 ∧
    (((crReadCall toyHash crInit 10 [1, 2, 3]).1.buffer.drop crInit.pos).take 3 =
      [1, 2, 3]) ∧
    ((crReadCall toyHash crInit 10 [1, 2, 3]).2 = 0 ↔ ([1, 2, 3] : Bytes) = []) ∧
    (crReadCall toyHash crInit 10 [1, 2, 3]).1.pos =
      (if crInit.pos + 3 < 63 then crInit.pos + 3 else 0) ∧
    (crReadCall toyHash crInit 10 [1, 2, 3]).1.tree =
      (if crInit.pos + 3 < 63 then crInit.tree
       else crInit.tree ++ [toyHash (writeAt crInit.buffer crInit.pos [1, 2, 3])]) :=
  c6_read_contract toyHash crInit 10 [1, 2, 3] (by decide) (by decide) (by decide)

/-- C7 (counterexample): on the 1-element list (a power-of-two length),
`ChunksReader::finish` returns the lone Domain unchanged, while
`CommitmentReader::compute` unconditionally runs a first `compute_row` pass
and performs the out-of-bounds pair read on the singleton chunk: the two
reductions do not agree. -/
theorem c7_counterexample :
    compute toyHash [List.replicate 32 2] = .error .oobPairRead ∧
    finishReduce toyHash [List.replicate 32 2] = .ok (List.replicate 32 2) ∧
    compute toyHash [List.replicate 32 2] ≠
      finishReduce toyHash [List.replicate 32 2] := by
  refine ⟨rfl, rfl, ?_⟩
  intro h
  rw [show compute toyHash [List.replicate 32 2] = .error .oobPairRead from rfl,
    show finishReduce toyHash [List.replicate 32 2] =
      .ok (List.replicate 32 2) from rfl] at h
  cases h

/-- C7 (amended): on every list of Domain values of power-of-two length at
least 2, the sequential pairwise reduction of `ChunksReader::finish` and the
parallel pairwise reduction of `CommitmentReader::compute` return the same
Domain (`rayon`'s ordered `par_chunks(2).map(..).collect()` computes the same
row as the sequential `chunks(2)` loop). -/
theorem c7_seq_eq_parallel (hash : HashFn) (l : List Domain) (k : Nat)
    (hk : 1 ≤ k) (hlen : l.length = 2 ^ k) :
    compute hash l = finishReduce hash l := by
  rw [compute_pow2 hash k l hk hlen, finishReduce_pow2 hash k l hlen]

theorem c7_seq_eq_parallel_witness :
    compute toyHash [List.replicate 32 2, List.replicate 32 3] =
      finishReduce toyHash [List.replicate 32 2, List.replicate 32 3] :=
  c7_seq_eq_parallel toyHash [List.replicate 32 2, List.replicate 32 3] 1
    (by decide) (by decide)

/-- C2 (counterexample): chunk size 64 is a multiple of 64 and evenly divides
the 128-byte power-of-two stream, yet the Chunk Aggregator fails (each chunk
holds a single leaf, so the per-chunk `compute()` performs the out-of-bounds
singleton pair read) while the single-pass reference returns a commitment:
the two results differ, refuting the claim for chunk size 64. -/
theorem c2_counterexample :
    chunkedCommit toyHash 64 (List.replicate 128 1) = .error .oobPairRead ∧
    unchunkedCommit toyHash (List.replicate 128 1) = .ok (List.replicate 32 0) ∧
    chunkedCommit toyHash 64 (List.replicate 128 1) ≠
      unchunkedCommit toyHash (List.replicate 128 1) := by
  refine ⟨rfl, rfl, ?_⟩
  intro h
  rw [show chunkedCommit toyHash 64 (List.replicate 128 1) =
      .error .oobPairRead from rfl,
    show unchunkedCommit toyHash (List.replicate 128 1) =
      .ok (List.replicate 32 0) from rfl] at h
  cases h

/-- C2 (amended): for every padded stream whose length is a power of two at
least 2^7 (the minimum piece size, padded) and every chunk size that is a
multiple of 64, *at least 128*, and evenly divides the stream length, the
commitment from streaming through the Chunk Aggregator (per-chunk
compute/reset at each boundary, then `finish` over the chunk roots) equals
the commitment from a single Node Commitment Accumulator with one `compute`
call, and both succeed. -/
theorem c2_chunked_matches_reference (hash : HashFn) (data : Bytes) (cs k : Nat)
    (hk : 7 ≤ k) (hlen : data.length = 2 ^ k) (h64 : 64 ∣ cs) (h128 : 128 ≤ cs)
    (hdvd : cs ∣ data.length) :
    chunkedCommit hash cs data = unchunkedCommit hash data ∧
    (chunkedCommit hash cs data).isOk = true := by
  have hcs_dvd_pow : cs ∣ 2 ^ k := hlen ▸ hdvd
  obtain ⟨j, hjk, hj⟩ := (Nat.dvd_prime_pow Nat.prime_two).mp hcs_dvd_pow
  have hj7 : 7 ≤ j := by
    by_contra hlt
    have hcslt : cs < 128 := by
      rw [hj]
      calc 2 ^ j ≤ 2 ^ 6 := Nat.pow_le_pow_right (by omega) (by omega)
        _ < 128 := by norm_num
    omega
  subst hj
  obtain ⟨hcc, hu⟩ := chunkedCommit_eq_unchunked hash data k j hk hj7 hjk hlen
  refine ⟨by rw [hcc, hu], by rw [hcc]; rfl⟩

theorem c2_chunked_matches_reference_witness :
    chunkedCommit toyHash 128 (List.replicate 128 1) =
        unchunkedCommit toyHash (List.replicate 128 1) ∧
      (chunkedCommit toyHash 128 (List.replicate 128 1)).isOk = true :=
  c2_chunked_matches_reference toyHash (List.replicate 128 1) 128 7
    (by norm_num) (by norm_num) (by norm_num) (by norm_num) (by norm_num)

/-- C3: a chunk root is appended only by the boundary check at the start of a
subsequent read call (demonstrated by the second half: a full 128-byte chunk
yields no root until the extra zero-length read that ends `io::copy`), and
`finish` reduces only the already-appended roots; consequently, when fewer
than `chunk_size` bytes are streamed the root list is empty at `finish` and
the reduction hits the `expect` panic instead of returning a commitment. -/
theorem c3_small_stream_panics (hash : HashFn) (cs : Nat) (data : Bytes)
    (hlt : data.length < cs) :
    (ckStreamRoots hash cs data = .ok [] ∧
      chunkedCommit hash cs data = .error .expectNone) ∧
    (ckRunRoots hash 128 (toBlocks 64 (List.replicate 128 3)) = .ok [] ∧
      (ckRunRoots hash 128 (toBlocks 64 (List.replicate 128 3) ++ [[]])).map
        List.length = .ok 1) := by
  constructor
  · have hsum : ((toBlocks 64 data ++ [[]]).map List.length).sum = data.length := by
      rw [List.map_append]
      simp
      rw [← List.length_flatten, toBlocks_flatten 64 (by omega) data]
    obtain ⟨st', r, heq, hroots, hrle, hrp⟩ := ckCopy_below hash cs
      (toBlocks 64 data ++ [[]]) ckInit 0
      (by dsimp only [ckInit]; rw [hsum]; omega)
    have h0 : st'.roots = [] := by rw [hroots]; rfl
    constructor
    · unfold ckStreamRoots ckRunRoots
      simp only [heq]
      rw [h0]
    · unfold chunkedCommit ckRunCommit
      simp only [heq]
      rw [h0]
      exact finishReduce_nil hash
  · exact ⟨rfl, rfl⟩

theorem c3_small_stream_panics_witness :
    (ckStreamRoots toyHash 200 [1, 2, 3] = .ok [] ∧
      chunkedCommit toyHash 200 [1, 2, 3] = .error .expectNone) ∧
    (ckRunRoots toyHash 128 (toBlocks 64 (List.replicate 128 3)) = .ok [] ∧
      (ckRunRoots toyHash 128 (toBlocks 64 (List.replicate 128 3) ++ [[]])).map
        List.length = .ok 1) :=
  c3_small_stream_panics toyHash 200 [1, 2, 3] (by norm_num)

/-- C8: with a valid declared size but a source that delivers zero bytes
before end-of-stream, `add_piece` fails with the dedicated empty-source
error (`read 0 bytes before EOF`), distinct from the invalid-size error, and
returns no commitment. -/
theorem c8_empty_source_distinct_error (hash : HashFn)
    (toPadded fromPadded : Nat → Nat) (minSize : Nat) (align : PieceAlignment)
    (pieceSize : Nat) (hmin : minSize ≤ pieceSize)
    (hpow : isPow2 (toPadded pieceSize) = true) :
    (add_piece hash toPadded fromPadded minSize align pieceSize []).1 =
        .error .emptySource ∧
      APError.emptySource ≠ APError.invalidSize := by
  have hguard : ¬ ensurePieceSize toPadded minSize pieceSize = false := by
    unfold ensurePieceSize
    simp [hmin, hpow]
  have hcopy : ckCopy hash CHUNK_SIZE ckInit 0 (toBlocks 64 ([] : Bytes) ++ [[]]) =
      .ok (⟨ckInit.inner, ckInit.readPos + 0, ckInit.roots⟩, 0 + 0) := by
    show ckCopy hash CHUNK_SIZE ckInit 0 [[]] = _
    simp only [ckCopy,
      ckReadCall_no_boundary hash CHUNK_SIZE ckInit copyBufLen []
        (by norm_num [ckInit, CHUNK_SIZE]),
      crReadCall_nil hash ckInit.inner copyBufLen (by norm_num [ckInit, crInit])]
  refine ⟨?_, by decide⟩
  unfold add_piece addPieceModel
  rw [if_neg hguard]
  simp only [hcopy]
  rfl

theorem c8_empty_source_distinct_error_witness :
    (add_piece toyHash fr32Padded fr32Unpadded 127 ⟨0, 0⟩ 127 []).1 =
        .error .emptySource ∧
      APError.emptySource ≠ APError.invalidSize :=
  c8_empty_source_distinct_error toyHash fr32Padded fr32Unpadded 127 ⟨0, 0⟩ 127
    (by norm_num) (by decide)

/-- C9: whenever `add_piece` (for any chunk size, in particular the source's
`CHUNK_SIZE`) accepts a piece and returns a result, the total-bytes-written
value it returns is exactly `left_bytes + right_bytes + piece_size`, all in
unpadded units. -/
theorem c9_written_conservation (hash : HashFn) (toPadded fromPadded : Nat → Nat)
    (minSize chunkSize : Nat) (align : PieceAlignment) (pieceSize : Nat)
    (src : Bytes) (info : Domain × Nat) (written : Nat) (tr : APTrace)
    (h : addPieceModel hash toPadded fromPadded minSize chunkSize align
        pieceSize src = (.ok (info, written), tr)) :
    written = align.leftBytes + align.rightBytes + pieceSize := by
  unfold addPieceModel at h
  split at h
  · simp at h
  · split at h
    · simp at h
    · split at h
      · simp at h
      · split at h
        · simp at h
        · split at h
          · simp at h
          · simp at h
            exact h.1.2.symm

set_option maxHeartbeats 2000000 in
theorem c9_written_conservation_witness : (127 : Nat) = 0 + 0 + 127 :=
  c9_written_conservation toyHash fr32Padded fr32Unpadded 127 128 ⟨0, 0⟩ 127
    (List.replicate 128 1) (List.replicate 32 0, 127) 127
    ⟨List.replicate 128 1, 128⟩ rfl

theorem compute_pair (hash : HashFn) (x y : Domain) :
    compute hash [x, y] = .ok (hash (x ++ y)) := rfl

theorem finishReduce_pair (hash : HashFn) (x y : Domain) :
    finishReduce hash [x, y] = .ok (hash (x ++ y)) := rfl

theorem writeAt_length (buffer : Bytes) (pos : Nat) (c : Bytes)
    (h : pos + c.length ≤ buffer.length) :
    (writeAt buffer pos c).length = buffer.length := by
  unfold writeAt
  simp [List.length_take, List.length_drop]
  omega

theorem crReadCall_smallFill (hash : HashFn) (st : CRState) (w : Bytes)
    (hpos : st.pos = 0) (hw : w.length < 63) :
    crReadCall hash st copyBufLen w =
      (⟨writeAt st.buffer 0 w, w.length, st.tree⟩, w.length) := by
  obtain ⟨buf, pos, tree⟩ := st
  simp only at hpos
  subst hpos
  have hmin : min (64 - 0) copyBufLen = 64 := by norm_num [copyBufLen]
  simp only [crReadCall, crReadStep, tryHash, hmin]
  rw [List.take_of_length_le (by omega)]
  rw [if_pos (by omega : 0 + w.length < 63)]
  simp

theorem ckReadCall_smallFill (hash : HashFn) (cs : Nat) (st : CKState) (w : Bytes)
    (hlt : st.readPos < cs) (hpos : st.inner.pos = 0) (hw : w.length < 63) :
    ckReadCall hash cs st copyBufLen w =
      .ok (⟨⟨writeAt st.inner.buffer 0 w, w.length, st.inner.tree⟩,
             st.readPos + w.length, st.roots⟩, w.length) := by
  rw [ckReadCall_no_boundary hash cs st copyBufLen w hlt,
    crReadCall_smallFill hash st.inner w hpos hw]

/-- Running a `ChunksReader` with the misaligned chunk size 160 over two
chunks that each arrive as 64 + 64 + 32 bytes: the two 32-byte windows `w1`
and `w2` end up in the accumulation buffer when the boundary fires, are never
hashed, and only `w2` survives (overwritten and unread) in the final buffer;
each chunk root is the hash of its first two 64-byte leaves only. -/
theorem ckCopy160_two_chunks (hash : HashFn) (w1 w2 : Bytes)
    (hw1 : w1.length = 32) (hw2 : w2.length = 32) :
    ckCopy hash 160 ckInit 0
        [List.replicate 64 1, List.replicate 64 1, w1,
         List.replicate 64 1, List.replicate 64 1, w2, []] =
      .ok (⟨⟨writeAt (List.replicate 64 1) 0 w2, 0, []⟩, 0,
            [hash (hash (List.replicate 64 1) ++ hash (List.replicate 64 1)),
             hash (hash (List.replicate 64 1) ++ hash (List.replicate 64 1))]⟩,
           320) := by
  have hB : (List.replicate 64 1 : Bytes).length = 64 := by simp
  have hwl : (writeAt (List.replicate 64 1) 0 w1).length = 64 := by
    rw [writeAt_length]
    · simp
    · simp
      omega
  have c1 : ckReadCall hash 160 ckInit copyBufLen (List.replicate 64 1) =
      .ok (⟨⟨List.replicate 64 1, 0, [hash (List.replicate 64 1)]⟩, 64, []⟩, 64) := by
    rw [ckReadCall_block hash 160 ckInit (List.replicate 64 1)
      (by norm_num [ckInit]) (by simp [ckInit, crInit]) (by simp [ckInit, crInit]) hB]
    simp [ckInit, crInit]
  have c2 : ckReadCall hash 160
      ⟨⟨List.replicate 64 1, 0, [hash (List.replicate 64 1)]⟩, 64, []⟩ copyBufLen
      (List.replicate 64 1) =
      .ok (⟨⟨List.replicate 64 1, 0,
            [hash (List.replicate 64 1), hash (List.replicate 64 1)]⟩, 128, []⟩, 64) := by
    rw [ckReadCall_block hash 160 _ (List.replicate 64 1)
      (by norm_num) (by simp) (by simp) hB]
    simp
  have c3 : ckReadCall hash 160
      ⟨⟨List.replicate 64 1, 0,
        [hash (List.replicate 64 1), hash (List.replicate 64 1)]⟩, 128, []⟩ copyBufLen w1 =
      .ok (⟨⟨writeAt (List.replicate 64 1) 0 w1, 32,
            [hash (List.replicate 64 1), hash (List.replicate 64 1)]⟩, 160, []⟩, 32) := by
    rw [ckReadCall_smallFill hash 160 _ w1 (by norm_num) (by simp) (by omega)]
    rw [hw1]
  have c4 : ckReadCall hash 160
      ⟨⟨writeAt (List.replicate 64 1) 0 w1, 32,
        [hash (List.replicate 64 1), hash (List.replicate 64 1)]⟩, 160, []⟩ copyBufLen
      (List.replicate 64 1) =
      .ok (⟨⟨List.replicate 64 1, 0, [hash (List.replicate 64 1)]⟩, 64,
            [hash (hash (List.replicate 64 1) ++ hash (List.replicate 64 1))]⟩, 64) := by
    rw [ckReadCall_boundary hash 160 _ (List.replicate 64 1) (by norm_num)
      (hash (hash (List.replicate 64 1) ++ hash (List.replicate 64 1)))
      (compute_pair hash _ _)]
    rw [show crReset ⟨writeAt (List.replicate 64 1) 0 w1, 32,
          [hash (List.replicate 64 1), hash (List.replicate 64 1)]⟩ =
        ⟨writeAt (List.replicate 64 1) 0 w1, 0, []⟩ from rfl]
    rw [crReadCall_block hash ⟨writeAt (List.replicate 64 1) 0 w1, 0, []⟩
      (List.replicate 64 1) rfl hwl hB]
    simp
  have c5 : ckReadCall hash 160
      ⟨⟨List.replicate 64 1, 0, [hash (List.replicate 64 1)]⟩, 64,
        [hash (hash (List.replicate 64 1) ++ hash (List.replicate 64 1))]⟩ copyBufLen
      (List.replicate 64 1) =
      .ok (⟨⟨List.replicate 64 1, 0,
            [hash (List.replicate 64 1), hash (List.replicate 64 1)]⟩, 128,
            [hash (hash (List.replicate 64 1) ++ hash (List.replicate 64 1))]⟩, 64) := by
    rw [ckReadCall_block hash 160 _ (List.replicate 64 1)
      (by norm_num) (by simp) (by simp) hB]
    simp
  have c6 : ckReadCall hash 160
      ⟨⟨List.replicate 64 1, 0,
        [hash (List.replicate 64 1), hash (List.replicate 64 1)]⟩, 128,
        [hash (hash (List.replicate 64 1) ++ hash (List.replicate 64 1))]⟩ copyBufLen w2 =
      .ok (⟨⟨writeAt (List.replicate 64 1) 0 w2, 32,
            [hash (List.replicate 64 1), hash (List.replicate 64 1)]⟩, 160,
            [hash (hash (List.replicate 64 1) ++ hash (List.replicate 64 1))]⟩, 32) := by
    rw [ckReadCall_smallFill hash 160 _ w2 (by norm_num) (by simp) (by omega)]
    rw [hw2]
  have c7 : ckReadCall hash 160
      ⟨⟨writeAt (List.replicate 64 1) 0 w2, 32,
        [hash (List.replicate 64 1), hash (List.replicate 64 1)]⟩, 160,
        [hash (hash (List.replicate 64 1) ++ hash (List.replicate 64 1))]⟩ copyBufLen [] =
      .ok (⟨⟨writeAt (List.replicate 64 1) 0 w2, 0, []⟩, 0,
            [hash (hash (List.replicate 64 1) ++ hash (List.replicate 64 1)),
             hash (hash (List.replicate 64 1) ++ hash (List.replicate 64 1))]⟩, 0) := by
    rw [ckReadCall_boundary hash 160 _ [] (by norm_num)
      (hash (hash (List.replicate 64 1) ++ hash (List.replicate 64 1)))
      (compute_pair hash _ _)]
    rw [show crReset ⟨writeAt (List.replicate 64 1) 0 w2, 32,
          [hash (List.replicate 64 1), hash (List.replicate 64 1)]⟩ =
        ⟨writeAt (List.replicate 64 1) 0 w2, 0, []⟩ from rfl]
    rw [crReadCall_nil hash ⟨writeAt (List.replicate 64 1) 0 w2, 0, []⟩ copyBufLen
      (by norm_num)]
    simp
  simp only [ckCopy, c1, c2, c3, c4, c5, c6, c7]

set_option maxHeartbeats 1000000 in
/-- C10: with chunk size 160 (not a multiple of 64) and a source delivering
64 + 64 + 32 bytes per chunk, each boundary `reset()` discards the 32 bytes
sitting unhashed in the accumulation buffer: two streams of equal length that
differ exactly in such a 32-byte window produce identical chunk-root lists
and identical final commitments, with no error or assertion — for every
hasher, the dropped bytes are silently omitted. -/
theorem c10_misaligned_chunk_drops_bytes (hash : HashFn) :
    c10DeliveriesA ≠ c10DeliveriesB ∧
    c10DeliveriesA.flatten.length = c10DeliveriesB.flatten.length ∧
    ckRunRoots hash 160 c10DeliveriesA = ckRunRoots hash 160 c10DeliveriesB ∧
    ckRunCommit hash 160 c10DeliveriesA = ckRunCommit hash 160 c10DeliveriesB ∧
    (ckRunCommit hash 160 c10DeliveriesA).isOk = true := by
  have hA := ckCopy160_two_chunks hash (List.replicate 32 5) (List.replicate 32 6)
    (by simp) (by simp)
  have hB := ckCopy160_two_chunks hash (List.replicate 32 9) (List.replicate 32 6)
    (by simp) (by simp)
  have hA' : ckCopy hash 160 ckInit 0 c10DeliveriesA =
      ckCopy hash 160 ckInit 0 c10DeliveriesB := by
    rw [show c10DeliveriesA = [List.replicate 64 1, List.replicate 64 1,
        List.replicate 32 5, List.replicate 64 1, List.replicate 64 1,
        List.replicate 32 6, []] from rfl, hA,
      show c10DeliveriesB = [List.replicate 64 1, List.replicate 64 1,
        List.replicate 32 9, List.replicate 64 1, List.replicate 64 1,
        List.replicate 32 6, []] from rfl, hB]
  refine ⟨by decide, by decide, ?_, ?_, ?_⟩
  · unfold ckRunRoots
    rw [hA']
  · unfold ckRunCommit
    rw [hA']
  · unfold ckRunCommit
    rw [show c10DeliveriesA = [List.replicate 64 1, List.replicate 64 1,
        List.replicate 32 5, List.replicate 64 1, List.replicate 64 1,
        List.replicate 32 6, []] from rfl]
    simp only [hA]
    rw [finishReduce_pair]
    rfl
